import Mathlib

/-!
# Verification of `reliable_transport.py`

Shallow embedding of the sender/receiver state machines of the
reliable-transport protocol (`src/reliable_transport.py`), and proofs of
the specification claims about them.

Modelling conventions:
* Byte strings are `List Nat`, each element a byte value `< 256` where the
  program guarantees it (hypotheses state it where needed).
* Python `dict`s are association lists with unique keys; `dictInsert`
  replaces an existing binding in place, `dictErase` mirrors `dict.pop`
  (on the unique-key lists produced by the program it removes exactly the
  one binding with the given key).
* Python `set` of small ints (`self.ids`) is a `Finset Nat`; CPython's
  `set.pop` on a set of small integers below the hash-table size returns
  the element in the first occupied slot, i.e. the minimum, so `popMin`
  models `self.ids.pop()` for this program (ids stay below 2000 and hash
  to themselves).
* Exceptions are `Except` values whose `error` payload carries the object
  state at the moment of the raise (Python mutations made before the raise
  persist on the object).
* `struct.pack('I', x)` / `struct.unpack('I', b)` on the little-endian
  platforms this program runs on are `le32` / `readLe32`; `unpack`
  demands the exact field width, hence the explicit length checks.
* The float EWMA `int(self.alpha * self.rtt + (1 - self.alpha) * sample)`
  is not given a fixed arithmetic meaning: every theorem that touches it is
  universally quantified over the update function `ru : Nat → Nat → Nat`
  (the property never depends on the computed value).  `rttStd` is a
  concrete stand-in used only to instantiate witnesses.
-/

/-- Little-endian 4-byte encoding of a 32-bit value, as laid out by
`struct.pack` for an `I` field (values are reduced mod 2^32; the program
only packs values below 2^32). -/
def le32 (x : Nat) : List Nat :=
  [x % 256, x / 256 % 256, x / 65536 % 256, x / 16777216 % 256]

/-- Read a 4-byte little-endian field, as `struct.unpack` does for `I`.
Inputs of any other length never reach this in the embedding. -/
def readLe32 (l : List Nat) : Nat :=
  match l with
  | [a, b, c, d] => a + 256 * b + 65536 * c + 16777216 * d
  | _ => 0

/-- One bit step of the reflected CRC-32 (polynomial 0xEDB88320), the
algorithm implemented by `zlib.crc32`. -/
def crc32UpdateBit (c : Nat) : Nat :=
  if c % 2 = 1 then (c / 2) ^^^ 0xEDB88320 else c / 2

/-- Iterate the CRC bit step. -/
def crc32Bits : Nat → Nat → Nat
  | 0, c => c
  | k + 1, c => crc32Bits k (crc32UpdateBit c)

/-- `zlib.crc32` over a byte list: init 0xFFFFFFFF, per byte XOR then 8 bit
steps, final XOR with 0xFFFFFFFF. -/
def crc32 (data : List Nat) : Nat :=
  (data.foldl (fun c b => crc32Bits 8 (c ^^^ b)) 0xFFFFFFFF) ^^^ 0xFFFFFFFF

/-- `struct.pack('<{n}sIII', fragment, number, total_length, crc)` with the
CRC computed from the fragment, exactly as `Sender.write` builds a wire
message. -/
def encodeFragment (fragment : List Nat) (number total : Nat) : List Nat :=
  fragment ++ le32 number ++ le32 total ++ le32 (crc32 fragment)

/-! ## Python dict on association lists -/

/-- `d.get(k)` / `k in d` combined: first (unique) binding for `k`. -/
def dictGet (k : Nat) : List (Nat × α) → Option α
  | [] => none
  | (k2, v) :: rest => if k2 = k then some v else dictGet k rest

/-- `d[k] = v`: replace the binding in place, or append a fresh one. -/
def dictInsert (k : Nat) (v : α) : List (Nat × α) → List (Nat × α)
  | [] => [(k, v)]
  | (k2, v2) :: rest =>
      if k2 = k then (k, v) :: rest else (k2, v2) :: dictInsert k v rest

/-- `d.pop(k)`: drop the binding for `k` (all of them; the program's dicts
have unique keys). -/
def dictErase (k : Nat) : List (Nat × α) → List (Nat × α)
  | [] => []
  | (k2, v2) :: rest =>
      if k2 = k then dictErase k rest else (k2, v2) :: dictErase k rest

/-! ## Sender -/

/-- `Sender` object state.  `self.network` is modelled by returning the
list of packets handed to `send_packet`; `self.alpha` is absorbed into the
universally-quantified RTT update function.  A cache entry is
`(sequence id, encoded message, age)` mirroring `self.cache[number] =
[message, 0]`; insertion order is kept, as Python dicts do. -/
structure SenderState where
  mtu : Nat
  current_number : Nat
  cache : List (Nat × List Nat × Nat)
  ids : Finset Nat
  rtt : Nat
deriving DecidableEq

/-- `Sender.__init__(network, mtu)`. -/
def senderInit (mtu : Nat) : SenderState :=
  { mtu := mtu, current_number := 0, cache := [], ids := Finset.range 2000,
    rtt := 10 }

/-- `self.ids.pop()`: remove and return the minimum element (what CPython's
`set.pop` yields for this program's sets of small ints), or `none` when the
set is empty (Python raises `KeyError`). -/
def popMin (s : Finset Nat) : Option (Nat × Finset Nat) :=
  if h : s.Nonempty then some (s.min' h, s.erase (s.min' h)) else none

/-- Body of `Sender.on_msg` after decoding, for acked number `n`:
if outstanding, sample its age, fold it into the RTT estimate, drop the
cache entry and return the id to the pool; otherwise do nothing. -/
def ackApply (ru : Nat → Nat → Nat) (n : Nat) (s : SenderState) : SenderState :=
  match dictGet n s.cache with
  | none => s
  | some (_, age) =>
      { s with rtt := ru s.rtt age, cache := dictErase n s.cache,
               ids := insert n s.ids }

/-- `Sender.on_msg(msg)`: `struct.unpack('I', msg)` requires exactly 4
bytes (otherwise `struct.error` is raised with the state untouched), then
the ack is applied. -/
def sender_on_msg (ru : Nat → Nat → Nat) (msg : List Nat) (s : SenderState) :
    Except SenderState SenderState :=
  if msg.length = 4 then .ok (ackApply ru (readLe32 msg) s) else .error s

/-- `Sender.on_timer_tick()`: every cache entry ages by one; entries whose
new age exceeds 12 have their stored message resent, in table order.  The
age is not reset. -/
def sender_tick (s : SenderState) : SenderState × List (List Nat) :=
  let cache := s.cache.map (fun e => (e.1, e.2.1, e.2.2 + 1))
  ({ s with cache := cache },
   (cache.filter (fun e => 12 < e.2.2)).map (fun e => e.2.1))

/-- Number of iterations of the `while data_length > 0` loop in
`Sender.write`: the loop subtracts `eff` each round, so it runs
`⌈L / eff⌉` times (for `eff > 0`). -/
def numFragments (eff L : Nat) : Nat := (L + eff - 1) / eff

/-- The fragment sliced on the `i`-th loop iteration (0-based) is
`data[i*eff : (i+1)*eff]`. -/
def fragList (eff : Nat) (data : List Nat) : List (List Nat) :=
  (List.range (numFragments eff data.length)).map
    (fun i => (data.drop (i * eff)).take eff)

/-- The loop of `Sender.write`: per fragment, pop an id (raising `KeyError`
with all prior mutations kept if the pool is empty), encode, send, and
record the outstanding entry with age 0.  On success the Python function
returns `True`. -/
def writeGo (total : Nat) (frags : List (List Nat)) (s : SenderState)
    (sent : List (List Nat)) :
    Except (SenderState × List (List Nat))
      (SenderState × List (List Nat) × Bool) :=
  match frags with
  | [] => .ok (s, sent, true)
  | f :: rest =>
      match popMin s.ids with
      | none => .error (s, sent)
      | some (n, ids2) =>
          writeGo total rest
            { s with cache := dictInsert n (encodeFragment f n total, 0) s.cache,
                     ids := ids2 }
            (sent ++ [encodeFragment f n total])

/-- `Sender.write(data)`.  `eff_mtu = self.mtu - 4 - 4 - 4`; the
`fragment_count` field is `int(len(data) / eff_mtu) + 1` for every fragment
of the call.  (For `mtu ≤ 12` the Python code raises `ZeroDivisionError`
before mutating anything, or never terminates; every theorem below that
needs fragments assumes `12 < mtu`.) -/
def sender_write (data : List Nat) (s : SenderState) :
    Except (SenderState × List (List Nat))
      (SenderState × List (List Nat) × Bool) :=
  writeGo (data.length / (s.mtu - 4 - 4 - 4) + 1)
    (fragList (s.mtu - 4 - 4 - 4) data) s []

/-- Concrete RTT updater standing in for
`int(0.05 * rtt + 0.95 * sample)`, used only to instantiate witnesses. -/
def rttStd (rtt sample : Nat) : Nat := (5 * rtt + 95 * sample) / 100

/-! ## Receiver -/

/-- `Receiver` object state (`self.network` and `self.app` are modelled by
the returned packet and delivery lists).  `num_of_packets_recieved` keeps
the source's (misspelled) name; the program never updates it. -/
structure ReceiverState where
  cache : List (Nat × List Nat)
  num_of_packets_recieved : Nat
  length : Nat
  current : Nat
deriving DecidableEq

/-- `Receiver.__init__(network, app)`. -/
def receiverInit : ReceiverState :=
  { cache := [], num_of_packets_recieved := 0, length := 0, current := 0 }

/-- `struct.unpack('<{}sIII'.format(len(msg)-4-4-4), msg)`: fails
(`struct.error`) when the message is shorter than the 12-byte trailer,
otherwise splits off payload and the three little-endian fields. -/
def decodeFragment (msg : List Nat) : Option (List Nat × Nat × Nat × Nat) :=
  if msg.length < 12 then none
  else some (msg.take (msg.length - 12),
             readLe32 ((msg.drop (msg.length - 12)).take 4),
             readLe32 ((msg.drop (msg.length - 8)).take 4),
             readLe32 (msg.drop (msg.length - 4)))

/-- `Receiver.on_msg(msg)`: decode (short input raises, state untouched);
record `self.length = total_length`; on checksum mismatch drop silently;
on match send the 4-byte ack unconditionally, then deliver immediately if
`total_length` is not `> 1`, else buffer under the sequence id.  Result is
`(state, packets sent, payloads delivered to the application)`. -/
def receiver_on_msg (msg : List Nat) (s : ReceiverState) :
    Except ReceiverState (ReceiverState × List (List Nat) × List (List Nat)) :=
  match decodeFragment msg with
  | none => .error s
  | some (data, number, total, crc) =>
      if crc ≠ crc32 data then
        .ok ({ s with length := total }, [], [])
      else if total > 1 then
        .ok ({ s with length := total, cache := dictInsert number data s.cache },
             [le32 number], [])
      else
        .ok ({ s with length := total }, [le32 number], [data])

/-- `Receiver.on_timer_tick()`: if the buffer holds the cursor's entry,
deliver it, drop it and advance the cursor by one — once per tick, no
loop. -/
def receiver_tick (s : ReceiverState) : ReceiverState × List (List Nat) :=
  match dictGet s.current s.cache with
  | some d =>
      ({ s with cache := dictErase s.current s.cache, current := s.current + 1 },
       [d])
  | none => (s, [])

/-! ## Sender reachability and the pool invariant -/

/-- Sequence ids currently outstanding (keys of `self.cache`). -/
def senderKeys (s : SenderState) : List Nat := s.cache.map Prod.fst

/-- State extractor for `write` results: Python keeps the mutations made
before a mid-write `KeyError`. -/
def writeState
    (r : Except (SenderState × List (List Nat))
      (SenderState × List (List Nat) × Bool)) : SenderState :=
  match r with
  | .ok (s, _, _) => s
  | .error (s, _) => s

/-- State extractor for `on_msg` results. -/
def ackState (r : Except SenderState SenderState) : SenderState :=
  match r with
  | .ok s => s
  | .error s => s

/-- States a `Sender` can be driven into by any sequence of `write`,
`on_msg` (ack) and `on_timer_tick` calls, including the states left behind
by a mid-`write` pool-exhaustion `KeyError`. -/
inductive SenderReach (ru : Nat → Nat → Nat) (mtu : Nat) : SenderState → Prop
  | init : SenderReach ru mtu (senderInit mtu)
  | write (data : List Nat) {s : SenderState} :
      SenderReach ru mtu s → SenderReach ru mtu (writeState (sender_write data s))
  | ack (msg : List Nat) {s : SenderState} :
      SenderReach ru mtu s → SenderReach ru mtu (ackState (sender_on_msg ru msg s))
  | tick {s : SenderState} :
      SenderReach ru mtu s → SenderReach ru mtu (sender_tick s).1

/-- Invariant of claim C7, carried through the sender's reachable
states (see the lemmas below). -/
def SenderInv (s : SenderState) : Prop :=
  (senderKeys s).Nodup ∧
  Disjoint (senderKeys s).toFinset s.ids ∧
  (senderKeys s).toFinset ∪ s.ids = Finset.range 2000

deriving instance DecidableEq for Except

/-! ## Helper lemmas: the id pool -/

lemma popMin_eq (s : Finset Nat) (n : Nat) (hmem : n ∈ s)
    (hle : ∀ m ∈ s, n ≤ m) : popMin s = some (n, s.erase n) := by
  have hne : s.Nonempty := ⟨n, hmem⟩
  have hm : s.min' hne = n :=
    le_antisymm (Finset.min'_le s n hmem) (hle _ (Finset.min'_mem s hne))
  rw [popMin, dif_pos hne, hm]

lemma popMin_spec {s : Finset Nat} {n : Nat} {ids2 : Finset Nat}
    (h : popMin s = some (n, ids2)) : n ∈ s ∧ ids2 = s.erase n := by
  rw [popMin] at h
  split at h
  · rename_i hne
    obtain ⟨h1, h2⟩ := Prod.mk.injEq .. ▸ Option.some.injEq .. ▸ h
    subst h1
    exact ⟨Finset.min'_mem s hne, h2.symm⟩
  · exact absurd h (by simp)

lemma writeGo_nil (total : Nat) (s : SenderState) (sent : List (List Nat)) :
    writeGo total [] s sent = .ok (s, sent, true) := rfl

lemma writeGo_cons (total : Nat) (f : List Nat) (rest : List (List Nat))
    (s : SenderState) (sent : List (List Nat)) (n : Nat) (ids2 : Finset Nat)
    (h : popMin s.ids = some (n, ids2)) :
    writeGo total (f :: rest) s sent =
      writeGo total rest
        { s with
            cache := dictInsert n (encodeFragment f n total, 0) s.cache,
            ids := ids2 }
        (sent ++ [encodeFragment f n total]) := by
  rw [writeGo, h]

lemma writeGo_cons_fail (total : Nat) (f : List Nat) (rest : List (List Nat))
    (s : SenderState) (sent : List (List Nat)) (h : popMin s.ids = none) :
    writeGo total (f :: rest) s sent = .error (s, sent) := by
  rw [writeGo, h]

/-! ## Helper lemmas: dict operations -/

lemma dictGet_dictErase_self (k : Nat) (l : List (Nat × α)) :
    dictGet k (dictErase k l) = none := by
  induction l with
  | nil => rfl
  | cons e rest ih =>
      obtain ⟨k2, v2⟩ := e
      by_cases h : k2 = k
      · simpa [dictErase, h] using ih
      · simpa [dictErase, dictGet, h] using ih

lemma dictGet_some_mem {k : Nat} {l : List (Nat × α)} {v : α}
    (h : dictGet k l = some v) : k ∈ l.map Prod.fst := by
  induction l with
  | nil => simp [dictGet] at h
  | cons e rest ih =>
      obtain ⟨k2, v2⟩ := e
      by_cases hk : k2 = k
      · simp [hk]
      · rw [dictGet, if_neg hk] at h
        simp [ih h]

lemma dictGet_none_not_mem {k : Nat} {l : List (Nat × α)}
    (h : dictGet k l = none) : k ∉ l.map Prod.fst := by
  induction l with
  | nil => simp
  | cons e rest ih =>
      obtain ⟨k2, v2⟩ := e
      by_cases hk : k2 = k
      · rw [dictGet, if_pos hk] at h
        exact absurd h (by simp)
      · rw [dictGet, if_neg hk] at h
        simp only [List.map_cons, List.mem_cons]
        rintro (rfl | hm)
        · exact hk rfl
        · exact ih h hm

lemma mem_keys_dictInsert (k a : Nat) (v : α) (l : List (Nat × α)) :
    a ∈ (dictInsert k v l).map Prod.fst ↔ a = k ∨ a ∈ l.map Prod.fst := by
  induction l with
  | nil => simp [dictInsert]
  | cons e rest ih =>
      obtain ⟨k2, v2⟩ := e
      by_cases h : k2 = k
      · subst h
        simp [dictInsert]
      · simp only [dictInsert, if_neg h, List.map_cons, List.mem_cons, ih]
        tauto

lemma mem_keys_dictErase (k a : Nat) (l : List (Nat × α)) :
    a ∈ (dictErase k l).map Prod.fst ↔ a ∈ l.map Prod.fst ∧ a ≠ k := by
  induction l with
  | nil => simp [dictErase]
  | cons e rest ih =>
      obtain ⟨k2, v2⟩ := e
      by_cases h : k2 = k
      · rw [dictErase, if_pos h, ih]
        subst h
        simp only [List.map_cons, List.mem_cons]
        constructor
        · rintro ⟨hm, hne⟩
          exact ⟨Or.inr hm, hne⟩
        · rintro ⟨rfl | hm, hne⟩
          · exact absurd rfl hne
          · exact ⟨hm, hne⟩
      · rw [dictErase, if_neg h]
        simp only [List.map_cons, List.mem_cons, ih]
        constructor
        · rintro (rfl | ⟨hm, hne⟩)
          · exact ⟨Or.inl rfl, fun hak => h (hak ▸ rfl)⟩
          · exact ⟨Or.inr hm, hne⟩
        · rintro ⟨rfl | hm, hne⟩
          · exact Or.inl rfl
          · exact Or.inr ⟨hm, hne⟩

lemma dictErase_sublist (k : Nat) (l : List (Nat × α)) :
    List.Sublist (dictErase k l) l := by
  induction l with
  | nil => simp [dictErase]
  | cons e rest ih =>
      obtain ⟨k2, v2⟩ := e
      by_cases h : k2 = k
      · rw [dictErase, if_pos h]
        exact ih.trans (List.sublist_cons_self _ _)
      · rw [dictErase, if_neg h]
        exact ih.cons₂ _

lemma nodup_keys_dictErase (k : Nat) {l : List (Nat × α)}
    (h : (l.map Prod.fst).Nodup) : ((dictErase k l).map Prod.fst).Nodup :=
  h.sublist ((dictErase_sublist k l).map Prod.fst)

lemma nodup_keys_dictInsert (k : Nat) (v : α) {l : List (Nat × α)}
    (h : (l.map Prod.fst).Nodup) : ((dictInsert k v l).map Prod.fst).Nodup := by
  induction l with
  | nil => simp [dictInsert]
  | cons e rest ih =>
      obtain ⟨k2, v2⟩ := e
      simp only [List.map_cons, List.nodup_cons] at h
      by_cases hk : k2 = k
      · subst hk
        simpa [dictInsert] using h
      · rw [dictInsert, if_neg hk]
        simp only [List.map_cons, List.nodup_cons]
        refine ⟨fun hm => ?ha, ih h.2⟩
        rcases (mem_keys_dictInsert k k2 v rest).1 hm with rfl | hm2
        · exact hk rfl
        · exact h.1 hm2

lemma keys_toFinset_dictInsert (k : Nat) (v : α) (l : List (Nat × α)) :
    ((dictInsert k v l).map Prod.fst).toFinset =
      insert k (l.map Prod.fst).toFinset := by
  ext a
  simp only [List.mem_toFinset, Finset.mem_insert, mem_keys_dictInsert]

lemma keys_toFinset_dictErase (k : Nat) (l : List (Nat × α)) :
    ((dictErase k l).map Prod.fst).toFinset =
      (l.map Prod.fst).toFinset.erase k := by
  ext a
  simp only [List.mem_toFinset, mem_keys_dictErase, Finset.mem_erase]
  tauto

/-! ## Helper lemmas: wire format -/

lemma le32_length (x : Nat) : (le32 x).length = 4 := rfl

lemma readLe32_le32 (x : Nat) : readLe32 (le32 x) = x % 4294967296 := by
  show x % 256 + 256 * (x / 256 % 256) + 65536 * (x / 65536 % 256) +
        16777216 * (x / 16777216 % 256) = x % 4294967296
  omega

lemma crc32UpdateBit_lt {c : Nat} (h : c < 4294967296) :
    crc32UpdateBit c < 4294967296 := by
  rw [crc32UpdateBit]
  split
  · exact Nat.xor_lt_two_pow (n := 32) (by omega) (by norm_num)
  · omega

lemma crc32Bits_lt {c : Nat} (k : Nat) (h : c < 4294967296) :
    crc32Bits k c < 4294967296 := by
  induction k generalizing c with
  | zero => exact h
  | succ k ih => exact ih (crc32UpdateBit_lt h)

lemma crc32_lt {data : List Nat} (h : ∀ b ∈ data, b < 256) :
    crc32 data < 4294967296 := by
  rw [crc32]
  refine Nat.xor_lt_two_pow (n := 32) ?hf (by norm_num)
  have : ∀ c : Nat, c < 4294967296 →
      data.foldl (fun c b => crc32Bits 8 (c ^^^ b)) c < 4294967296 := by
    induction data with
    | nil => intro c hc; exact hc
    | cons b rest ih =>
        intro c hc
        rw [List.foldl_cons]
        refine ih (fun x hx => h x (List.mem_cons_of_mem b hx)) _
          (crc32Bits_lt 8 (Nat.xor_lt_two_pow (n := 32) hc ?hb))
        have := h b (List.mem_cons_self b rest)
        omega
  exact this 0xFFFFFFFF (by norm_num)

lemma encodeFragment_length (f : List Nat) (n t : Nat) :
    (encodeFragment f n t).length = f.length + 12 := by
  simp [encodeFragment, le32]

/-- Decoding inverts encoding whenever the three packed fields are in
`u32` range (the program always packs such values). -/
lemma decode_encodeFragment (f : List Nat) (n t : Nat)
    (hn : n < 4294967296) (ht : t < 4294967296)
    (hf : ∀ b ∈ f, b < 256) :
    decodeFragment (encodeFragment f n t) = some (f, n, t, crc32 f) := by
  have hc : crc32 f < 4294967296 := crc32_lt hf
  have hlen : (encodeFragment f n t).length = f.length + 12 :=
    encodeFragment_length f n t
  have h12 : ¬ (encodeFragment f n t).length < 12 := by omega
  have hsplit : encodeFragment f n t =
      f ++ (le32 n ++ (le32 t ++ le32 (crc32 f))) := by
    rw [encodeFragment, List.append_assoc, List.append_assoc]
  rw [decodeFragment, if_neg h12, hlen, hsplit]
  have e12 : f.length + 12 - 12 = f.length := by omega
  have e8 : f.length + 12 - 8 = f.length + 4 := by omega
  have e4 : f.length + 12 - 4 = f.length + 4 + 4 := by omega
  have htake : (f ++ (le32 n ++ (le32 t ++ le32 (crc32 f)))).take f.length
      = f := List.take_left f _
  have hdrop0 : (f ++ (le32 n ++ (le32 t ++ le32 (crc32 f)))).drop f.length
      = le32 n ++ (le32 t ++ le32 (crc32 f)) := List.drop_left f _
  have hdrop4 : (f ++ (le32 n ++ (le32 t ++ le32 (crc32 f)))).drop
      (f.length + 4) = le32 t ++ le32 (crc32 f) := by
    rw [← List.drop_drop, hdrop0]
    show (le32 n ++ (le32 t ++ le32 (crc32 f))).drop (le32 n).length = _
    rw [List.drop_left]
  have hdrop8 : (f ++ (le32 n ++ (le32 t ++ le32 (crc32 f)))).drop
      (f.length + 4 + 4) = le32 (crc32 f) := by
    rw [← List.drop_drop, hdrop4]
    show (le32 t ++ le32 (crc32 f)).drop (le32 t).length = _
    rw [List.drop_left]
  have hts : (le32 n ++ (le32 t ++ le32 (crc32 f))).take 4 = le32 n := by
    show (le32 n ++ (le32 t ++ le32 (crc32 f))).take (le32 n).length = _
    rw [List.take_left]
  have hts2 : (le32 t ++ le32 (crc32 f)).take 4 = le32 t := by
    show (le32 t ++ le32 (crc32 f)).take (le32 t).length = _
    rw [List.take_left]
  rw [e12, e8, e4, htake, hdrop0, hdrop4, hdrop8, hts, hts2,
    readLe32_le32, readLe32_le32, readLe32_le32,
    Nat.mod_eq_of_lt hn, Nat.mod_eq_of_lt ht, Nat.mod_eq_of_lt hc]

/-- Behaviour of `Receiver.on_msg` on any well-formed encoded fragment:
the checksum always verifies, the ack is always sent, `self.length` is
overwritten, and the payload is delivered immediately exactly when the
`fragment_count` field is not `> 1`, otherwise buffered under the
sequence id.  The cursor `self.current` is not consulted or changed. -/
lemma receiver_on_msg_encode (f : List Nat) (n t : Nat) (s : ReceiverState)
    (hn : n < 4294967296) (ht : t < 4294967296) (hf : ∀ b ∈ f, b < 256) :
    receiver_on_msg (encodeFragment f n t) s =
      if 1 < t then
        .ok ({ s with length := t, cache := dictInsert n f s.cache },
             [le32 n], [])
      else
        .ok ({ s with length := t }, [le32 n], [f]) := by
  rw [receiver_on_msg, decode_encodeFragment f n t hn ht hf]
  simp only [ne_eq, not_true_eq_false, if_false, gt_iff_lt]

/-- `ackApply` is idempotent: the first application removes the binding so
the second finds nothing outstanding. -/
lemma ackApply_idem (ru : Nat → Nat → Nat) (n : Nat) (s : SenderState) :
    ackApply ru n (ackApply ru n s) = ackApply ru n s := by
  rcases h : dictGet n s.cache with _ | ⟨m, a⟩
  · have e : ackApply ru n s = s := by rw [ackApply, h]
    rw [e]
    exact e
  · have e : ackApply ru n s =
        { s with rtt := ru s.rtt a, cache := dictErase n s.cache,
                 ids := insert n s.ids } := by rw [ackApply, h]
    rw [e, ackApply]
    have e2 : dictGet n (dictErase n s.cache) = none :=
      dictGet_dictErase_self n s.cache
    simp only [e2]

/-! ## Helper lemmas: fragmentation -/

lemma numFragments_zero {eff : Nat} (heff : 0 < eff) :
    numFragments eff 0 = 0 := by
  rw [numFragments]
  exact Nat.div_eq_of_lt (by omega)

lemma numFragments_pos {eff L : Nat} (heff : 0 < eff) (hL : 0 < L) :
    0 < numFragments eff L := by
  rw [numFragments]
  exact Nat.div_pos (by omega) heff

lemma fragList_length (eff : Nat) (data : List Nat) :
    (fragList eff data).length = numFragments eff data.length := by
  simp [fragList]

lemma fragList_mem_short {eff : Nat} {data f : List Nat}
    (h : f ∈ fragList eff data) : f.length ≤ eff := by
  simp only [fragList, List.mem_map, List.mem_range] at h
  obtain ⟨i, _, rfl⟩ := h
  rw [List.length_take]
  exact min_le_left ..

lemma fragList_step {eff : Nat} (heff : 0 < eff) {data : List Nat}
    (hL : 0 < data.length) :
    fragList eff data = data.take eff :: fragList eff (data.drop eff) := by
  have hnum : numFragments eff data.length =
      numFragments eff (data.drop eff).length + 1 := by
    rw [List.length_drop, numFragments, numFragments]
    have e1 : data.length + eff - 1 = (data.length - 1) + eff := by omega
    rw [e1, Nat.add_div_right _ heff]
    congr 1
    rcases Nat.lt_or_ge data.length eff with hc | hc
    · rw [Nat.div_eq_of_lt (by omega), Nat.div_eq_of_lt (by omega)]
    · congr 1
      omega
  rw [fragList, fragList, hnum, List.range_succ_eq_map, List.map_cons,
    List.map_map]
  refine congrArg₂ _ (by simp) ?htail
  refine List.map_eq_map_iff.mpr fun i _ => ?hi
  show (data.drop (i.succ * eff)).take eff = _
  have e2 : i.succ * eff = eff + i * eff :=
    (Nat.succ_mul i eff).trans (Nat.add_comm _ _)
  rw [e2, ← List.drop_drop]

lemma fragList_flatten_aux (eff : Nat) (heff : 0 < eff) :
    ∀ (k : Nat) (data : List Nat), numFragments eff data.length = k →
      (fragList eff data).flatten = data := by
  intro k
  induction k with
  | zero =>
      intro data h
      have hlen : data.length = 0 := by
        by_contra h0
        exact absurd h (Nat.pos_iff_ne_zero.1
          (numFragments_pos heff (Nat.pos_of_ne_zero h0)))
      rw [fragList, hlen, numFragments_zero heff, List.range_zero,
        List.map_nil, List.flatten_nil]
      exact (List.length_eq_zero.1 hlen).symm
  | succ k ih =>
      intro data h
      have hL : 0 < data.length := by
        rcases Nat.eq_zero_or_pos data.length with h0 | h0
        · rw [h0, numFragments_zero heff] at h
          exact absurd h.symm (Nat.succ_ne_zero k)
        · exact h0
      have hstep := fragList_step heff hL
      have hk : numFragments eff (data.drop eff).length = k := by
        have hlen2 := congrArg List.length hstep
        rw [fragList_length, List.length_cons, fragList_length] at hlen2
        omega
      rw [hstep, List.flatten_cons, ih (data.drop eff) hk,
        List.take_append_drop]

/-- The fragments of a `write` concatenate back to the original data. -/
lemma fragList_flatten {eff : Nat} (heff : 0 < eff) (data : List Nat) :
    (fragList eff data).flatten = data :=
  fragList_flatten_aux eff heff _ data rfl

/-- When at least as many ids are free as fragments to send, the write
loop completes: it returns `True`, appends one encoded message per
fragment to the wire, and every message sent is an encoding of one of the
fragments with the call's `fragment_count` value. -/
lemma writeGo_ok (total : Nat) :
    ∀ (frags : List (List Nat)) (s : SenderState) (sent : List (List Nat)),
      frags.length ≤ s.ids.card →
      ∃ s2 extra, writeGo total frags s sent = .ok (s2, sent ++ extra, true) ∧
        extra.length = frags.length ∧
        ∀ m ∈ extra, ∃ f i, f ∈ frags ∧ m = encodeFragment f i total := by
  intro frags
  induction frags with
  | nil =>
      intro s sent h
      exact ⟨s, [], by simp [writeGo_nil], rfl, by simp⟩
  | cons f rest ih =>
      intro s sent h
      rw [List.length_cons] at h
      have hne : s.ids.Nonempty := Finset.card_pos.1 (by omega)
      obtain ⟨n, ids2, hpop⟩ : ∃ n ids2, popMin s.ids = some (n, ids2) := by
        rw [popMin, dif_pos hne]
        exact ⟨_, _, rfl⟩
      obtain ⟨hn, hids2⟩ := popMin_spec hpop
      have hcard : rest.length ≤ ids2.card := by
        rw [hids2, Finset.card_erase_of_mem hn]
        omega
      obtain ⟨s2, extra, heq, hlen, hmem⟩ :=
        ih { s with cache := dictInsert n (encodeFragment f n total, 0) s.cache,
                    ids := ids2 }
          (sent ++ [encodeFragment f n total]) hcard
      refine ⟨s2, encodeFragment f n total :: extra, ?he, by simp [hlen], ?hm⟩
      · rw [writeGo_cons total f rest s sent n ids2 hpop, heq]
        have : (sent ++ [encodeFragment f n total]) ++ extra =
            sent ++ (encodeFragment f n total :: extra) := by simp
        rw [this]
      · intro m hm2
        rcases List.mem_cons.1 hm2 with rfl | hmm
        · exact ⟨f, n, List.mem_cons_self .., rfl⟩
        · obtain ⟨f2, i, hf2, rfl⟩ := hmem m hmm
          exact ⟨f2, i, List.mem_cons_of_mem _ hf2, rfl⟩

/-! ## Helper lemmas: the pool partition invariant -/

lemma senderInv_init (mtu : Nat) : SenderInv (senderInit mtu) := by
  refine ⟨List.nodup_nil, ?hd, ?hu⟩ <;> simp [senderKeys, senderInit]

lemma senderInv_popStep {s : SenderState} {n : Nat} {ids2 : Finset Nat}
    (v : List Nat × Nat) (hpop : popMin s.ids = some (n, ids2))
    (hinv : SenderInv s) :
    SenderInv { s with cache := dictInsert n v s.cache, ids := ids2 } := by
  obtain ⟨hn, hids2⟩ := popMin_spec hpop
  obtain ⟨hnd, hdis, hun⟩ := hinv
  refine ⟨nodup_keys_dictInsert n v hnd, ?h2, ?h3⟩
  · show Disjoint ((dictInsert n v s.cache).map Prod.fst).toFinset ids2
    rw [keys_toFinset_dictInsert, hids2]
    refine Finset.disjoint_left.2 fun a ha hb => ?hx
    rcases Finset.mem_insert.1 ha with rfl | haK
    · exact Finset.not_mem_erase a s.ids hb
    · exact Finset.disjoint_left.1 hdis haK (Finset.mem_of_mem_erase hb)
  · show ((dictInsert n v s.cache).map Prod.fst).toFinset ∪ ids2 =
      Finset.range 2000
    rw [keys_toFinset_dictInsert, hids2, Finset.insert_union]
    calc insert n ((senderKeys s).toFinset ∪ s.ids.erase n)
        = (senderKeys s).toFinset ∪ insert n (s.ids.erase n) :=
          (Finset.union_insert ..).symm
      _ = (senderKeys s).toFinset ∪ s.ids := by
          rw [Finset.insert_erase hn]
      _ = Finset.range 2000 := hun

lemma senderInv_writeGo (total : Nat) :
    ∀ (frags : List (List Nat)) (s : SenderState) (sent : List (List Nat)),
      SenderInv s → SenderInv (writeState (writeGo total frags s sent)) := by
  intro frags
  induction frags with
  | nil =>
      intro s sent h
      rw [writeGo_nil]
      exact h
  | cons f rest ih =>
      intro s sent h
      rcases hpop : popMin s.ids with _ | ⟨n, ids2⟩
      · rw [writeGo_cons_fail total f rest s sent hpop]
        exact h
      · rw [writeGo_cons total f rest s sent n ids2 hpop]
        exact ih _ _ (senderInv_popStep _ hpop h)

lemma senderInv_ackApply (ru : Nat → Nat → Nat) (n : Nat) (s : SenderState)
    (h : SenderInv s) : SenderInv (ackApply ru n s) := by
  obtain ⟨hnd, hdis, hun⟩ := h
  rcases hget : dictGet n s.cache with _ | ⟨m, a⟩
  · rw [ackApply, hget]
    exact ⟨hnd, hdis, hun⟩
  · rw [ackApply, hget]
    have hnK : n ∈ (senderKeys s).toFinset :=
      List.mem_toFinset.2 (dictGet_some_mem hget)
    refine ⟨nodup_keys_dictErase n hnd, ?h2, ?h3⟩
    · show Disjoint ((dictErase n s.cache).map Prod.fst).toFinset
        (insert n s.ids)
      rw [keys_toFinset_dictErase]
      refine Finset.disjoint_left.2 fun a ha hb => ?hx
      obtain ⟨hane, haK⟩ := Finset.mem_erase.1 ha
      rcases Finset.mem_insert.1 hb with rfl | hbI
      · exact hane rfl
      · exact Finset.disjoint_left.1 hdis haK hbI
    · show ((dictErase n s.cache).map Prod.fst).toFinset ∪ insert n s.ids =
        Finset.range 2000
      rw [keys_toFinset_dictErase]
      calc (senderKeys s).toFinset.erase n ∪ insert n s.ids
          = insert n ((senderKeys s).toFinset.erase n ∪ s.ids) :=
            Finset.union_insert ..
        _ = insert n ((senderKeys s).toFinset.erase n) ∪ s.ids := by
            rw [Finset.insert_union]
        _ = (senderKeys s).toFinset ∪ s.ids := by
            rw [Finset.insert_erase hnK]
        _ = Finset.range 2000 := hun

lemma senderInv_ack (ru : Nat → Nat → Nat) (msg : List Nat) (s : SenderState)
    (h : SenderInv s) : SenderInv (ackState (sender_on_msg ru msg s)) := by
  rw [sender_on_msg]
  by_cases hl : msg.length = 4
  · rw [if_pos hl]
    exact senderInv_ackApply ru (readLe32 msg) s h
  · rw [if_neg hl]
    exact h

lemma senderInv_tick (s : SenderState) (h : SenderInv s) :
    SenderInv (sender_tick s).1 := by
  obtain ⟨hnd, hdis, hun⟩ := h
  have e : (sender_tick s).1 =
      { s with cache := s.cache.map (fun e => (e.1, e.2.1, e.2.2 + 1)) } := rfl
  have hk : senderKeys
      { s with cache := s.cache.map (fun e => (e.1, e.2.1, e.2.2 + 1)) } =
      senderKeys s := by
    rw [senderKeys, senderKeys, List.map_map]
    rfl
  rw [SenderInv, e, hk]
  exact ⟨hnd, hdis, hun⟩

/-! ## Claim theorems -/

/-- C6: a packet shorter than the 12-byte fixed header is rejected by the
decode step with a typed error (Python's `struct.error`, the rejection the
spec calls `MalformedPacketError`), before any state change, ack, or
delivery to the application; likewise an ack of the wrong width is
rejected by the sender's decode with the state untouched — every failure
is surfaced as a typed rejection to the immediate caller, never an
undefined outcome of the protocol logic. -/
theorem c6_malformed_rejected (ru : Nat → Nat → Nat) (m1 m2 : List Nat)
    (r : ReceiverState) (s : SenderState)
    (h1 : m1.length < 12) (h2 : m2.length ≠ 4) :
    receiver_on_msg m1 r = .error r ∧ sender_on_msg ru m2 s = .error s := by
  constructor
  · rw [receiver_on_msg, decodeFragment, if_pos h1]
  · rw [sender_on_msg, if_neg h2]

/-- C6 witness: a 1-byte packet at the receiver and a 3-byte ack at the
sender are both rejected with the state unchanged. -/
theorem c6_malformed_rejected_witness :
    receiver_on_msg [7] receiverInit = .error receiverInit ∧
    sender_on_msg rttStd [1, 2, 3] (senderInit 50) = .error (senderInit 50) :=
  c6_malformed_rejected rttStd [7] [1, 2, 3] receiverInit (senderInit 50)
    (by decide) (by decide)

/-- C8: delivering the same acknowledgment bytes twice equals delivering
them once; the first application (when the id is outstanding) removes the
record, folds the record's age into the RTT estimate and returns the id to
the pool, and an ack for an id that is not outstanding changes nothing —
so no id is ever double-released. -/
theorem c8_ack_idempotent (ru : Nat → Nat → Nat) (msg : List Nat)
    (s : SenderState) :
    (sender_on_msg ru msg s).bind (sender_on_msg ru msg) =
        sender_on_msg ru msg s ∧
    (∀ n m a, dictGet n s.cache = some (m, a) →
      ackApply ru n s =
        { s with rtt := ru s.rtt a, cache := dictErase n s.cache,
                 ids := insert n s.ids }) ∧
    (∀ n, dictGet n s.cache = none → ackApply ru n s = s) := by
  refine ⟨?hbind, fun n m a h => by rw [ackApply, h], fun n h => by rw [ackApply, h]⟩
  by_cases hl : msg.length = 4
  · rw [sender_on_msg, if_pos hl]
    show sender_on_msg ru msg (ackApply ru (readLe32 msg) s) = _
    rw [sender_on_msg, if_pos hl, ackApply_idem]
  · rw [sender_on_msg, if_neg hl]
    rfl

/-- C8 witness: a concrete ack applied twice to a sender with id 7
outstanding equals the single application. -/
theorem c8_ack_idempotent_witness :
    (sender_on_msg rttStd (le32 7)
        { senderInit 60 with cache := [(7, [1, 2], 3)] }).bind
      (sender_on_msg rttStd (le32 7)) =
    sender_on_msg rttStd (le32 7)
        { senderInit 60 with cache := [(7, [1, 2], 3)] } :=
  (c8_ack_idempotent rttStd (le32 7)
    { senderInit 60 with cache := [(7, [1, 2], 3)] }).1

/-- C4 (amended): on a tick every outstanding record's age grows by
exactly 1, and exactly the records whose age was already at least 12
before the tick are retransmitted verbatim (the stored encoded bytes);
the age is NOT reset, so any message resent on this tick is resent again
on the next one — not at most once per 12-tick interval. -/
theorem c4_amended_tick (s : SenderState) :
    sender_tick s =
      ({ s with cache := s.cache.map (fun e => (e.1, e.2.1, e.2.2 + 1)) },
       (s.cache.filter (fun e => 11 < e.2.2)).map (fun e => e.2.1)) ∧
    ∀ m, m ∈ (sender_tick s).2 → m ∈ (sender_tick (sender_tick s).1).2 := by
  constructor
  · rw [sender_tick]
    refine congrArg _ ?hsends
    rw [List.filter_map]
    have : ∀ e ∈ s.cache,
        ((fun e => decide (12 < e.2.2)) ∘
          (fun e : Nat × List Nat × Nat => (e.1, e.2.1, e.2.2 + 1))) e =
        (fun e : Nat × List Nat × Nat => decide (11 < e.2.2)) e := by
      intro e _
      simp only [Function.comp_apply, decide_eq_decide]
      omega
    rw [List.filter_congr this, List.map_map]
    rfl
  · intro m hm
    simp only [sender_tick, List.mem_map, List.mem_filter, List.map_map] at hm ⊢
    obtain ⟨e, ⟨⟨e0, he0, rfl⟩, hage⟩, rfl⟩ := hm
    refine ⟨(e0.1, e0.2.1, e0.2.2 + 1 + 1), ⟨⟨e0, he0, rfl⟩, ?ha⟩, rfl⟩
    simp only [decide_eq_true_eq] at hage ⊢
    omega

/-- C4 witness for the amended statement, at a sender with one record of
age 12: the tick bumps it to 13 and resends it. -/
theorem c4_amended_tick_witness :
    sender_tick
        { mtu := 60, current_number := 0, cache := [(0, [5, 6], 12)],
          ids := ∅, rtt := 10 } =
      ({ mtu := 60, current_number := 0, cache := [(0, [5, 6], 13)],
         ids := ∅, rtt := 10 }, [[5, 6]]) :=
  ((c4_amended_tick
      { mtu := 60, current_number := 0, cache := [(0, [5, 6], 12)],
        ids := ∅, rtt := 10 }).1).trans (by decide)

/-- C4 counterexample to the claim as stated: a record that was just
retransmitted has age 13 (not 0) and is retransmitted again on the very
next tick, so retransmission is not limited to once per 12-tick
interval. -/
theorem c4_age_not_reset :
    sender_tick
        { mtu := 60, current_number := 0, cache := [(0, [5, 6], 13)],
          ids := ∅, rtt := 10 } =
      ({ mtu := 60, current_number := 0, cache := [(0, [5, 6], 14)],
         ids := ∅, rtt := 10 }, [[5, 6]]) ∧
    (13 : Nat) ≠ 0 := by decide

/-- C9 (amended): a receiver tick delivers at most one buffered payload:
if the reorder buffer holds the cursor's entry it is delivered, removed,
and the cursor advances by exactly 1; otherwise nothing happens.  There
is no draining loop within the tick. -/
theorem c9_amended_tick_drains_one (s : ReceiverState) :
    (∀ d, dictGet s.current s.cache = some d →
      receiver_tick s =
        ({ s with cache := dictErase s.current s.cache,
                  current := s.current + 1 }, [d])) ∧
    (dictGet s.current s.cache = none → receiver_tick s = (s, [])) ∧
    (receiver_tick s).2.length ≤ 1 := by
  refine ⟨fun d h => by rw [receiver_tick, h],
          fun h => by rw [receiver_tick, h], ?hlen⟩
  rw [receiver_tick]
  rcases dictGet s.current s.cache with _ | d <;> simp

/-- C9 witness for the amended statement: with payloads buffered at ids 0
and 1 and cursor 0, one tick delivers only id 0's payload. -/
theorem c9_amended_tick_witness :
    receiver_tick { receiverInit with cache := [(0, [97]), (1, [98])] } =
      ({ receiverInit with cache := [(1, [98])], current := 1 }, [[97]]) :=
  (((c9_amended_tick_drains_one
      { receiverInit with cache := [(0, [97]), (1, [98])] }).1) [97]
    (by decide)).trans (by decide)

/-- C9 counterexample to the claim as stated: with a contiguous run
buffered at ids 0 and 1 and cursor 0, a single `on_timer_tick` delivers
only the first entry — the buffer still holds the (new) cursor's entry
after the call, so the contiguous run is not drained within one tick. -/
theorem c9_single_drain_per_tick :
    receiver_tick { receiverInit with cache := [(0, [97]), (1, [98])] } =
      ({ receiverInit with cache := [(1, [98])], current := 1 }, [[97]]) ∧
    dictGet 1 [(1, [98])] = some [98] := by decide

/-- C2 counterexample to the claim as stated: a checksum-valid fragment
with sequence id 5 and fragment count 1 arriving at a fresh receiver
(cursor 0) is delivered immediately, although its id differs from
`next_expected_id`, and the cursor is not advanced. -/
theorem c2_delivery_ignores_cursor :
    receiver_on_msg (encodeFragment [] 5 1) receiverInit =
      .ok ({ receiverInit with length := 1 }, [le32 5], [[]]) ∧
    receiverInit.current ≠ 5 := by decide

/-- C2 (amended): for every checksum-valid fragment, `on_msg` delivers the
payload immediately if and only if the `fragment_count` field is not
greater than 1 — the cursor is neither consulted nor advanced; fragments
with `fragment_count > 1` are buffered under their sequence id regardless
of the cursor, and the ack is sent in both cases. -/
theorem c2_amended_delivery_by_fragment_count (f : List Nat) (n t : Nat)
    (s : ReceiverState) (hn : n < 4294967296) (ht : t < 4294967296)
    (hf : ∀ b ∈ f, b < 256) :
    receiver_on_msg (encodeFragment f n t) s =
      if 1 < t then
        .ok ({ s with length := t, cache := dictInsert n f s.cache },
             [le32 n], [])
      else
        .ok ({ s with length := t }, [le32 n], [f]) :=
  receiver_on_msg_encode f n t s hn ht hf

/-- C2 amended-claim witness: a valid two-fragment-count packet is
buffered, not delivered, whatever the cursor. -/
theorem c2_amended_witness :
    receiver_on_msg (encodeFragment [42] 3 2) receiverInit =
      .ok ({ receiverInit with length := 2, cache := [(3, [42])] },
           [le32 3], []) :=
  (c2_amended_delivery_by_fragment_count [42] 3 2 receiverInit
    (by decide) (by decide) (by decide)).trans (by decide)

/-- C10: a checksum-valid fragment whose `fragment_count` field equals 1
is handed to the application immediately within `on_msg`, with the reorder
buffer and the cursor left untouched; processing the identical packet a
second time delivers the payload again — single-fragment delivery is not
deduplicated. -/
theorem c10_single_fragment_immediate (f : List Nat) (n : Nat)
    (s : ReceiverState) (hn : n < 4294967296) (hf : ∀ b ∈ f, b < 256) :
    receiver_on_msg (encodeFragment f n 1) s =
      .ok ({ s with length := 1 }, [le32 n], [f]) ∧
    receiver_on_msg (encodeFragment f n 1) { s with length := 1 } =
      .ok ({ s with length := 1 }, [le32 n], [f]) := by
  have h := receiver_on_msg_encode f n 1 s hn (by norm_num) hf
  rw [if_neg (by norm_num)] at h
  have h2 := receiver_on_msg_encode f n 1 { s with length := 1 } hn
    (by norm_num) hf
  rw [if_neg (by norm_num)] at h2
  exact ⟨h, h2⟩

/-- C10 witness: a concrete single-fragment packet delivered twice from
the same receiver state. -/
theorem c10_single_fragment_witness :
    receiver_on_msg (encodeFragment [9] 4 1) receiverInit =
      .ok ({ receiverInit with length := 1 }, [le32 4], [[9]]) :=
  (c10_single_fragment_immediate [9] 4 receiverInit (by decide) (by decide)).1

/-- C5 counterexample to the claim as stated, at `MTU = 14`
(`eff = 2`): a 2-byte write — an exact multiple of the effective MTU —
sends one fragment, but the `fragment_count` field packed into it is 2,
not `ceil(2 / 2) = 1`; and an empty write sends no fragment at all rather
than one empty fragment. -/
theorem c5_fragment_count_off_by_one :
    sender_write [97, 98]
        { mtu := 14, current_number := 0, cache := [], ids := {0, 1},
          rtt := 10 } =
      .ok ({ mtu := 14, current_number := 0,
             cache := [(0, encodeFragment [97, 98] 0 2, 0)],
             ids := {1}, rtt := 10 },
           [encodeFragment [97, 98] 0 2], true) ∧
    numFragments 2 2 = 1 ∧ (2 : Nat) ≠ 1 ∧
    sender_write []
        { mtu := 14, current_number := 0, cache := [], ids := {0, 1},
          rtt := 10 } =
      .ok ({ mtu := 14, current_number := 0, cache := [], ids := {0, 1},
             rtt := 10 }, [], true) := by decide

/-- C5 (amended): an accepted write with `eff = MTU - 12 > 0` and enough
free ids splits `data` into fragments of at most `eff` bytes which
concatenate back to `data`, sends exactly `ceil(len(data) / eff)`
fragments — zero for empty data, not one — and packs
`len(data) / eff + 1` (floor division plus one) as the `fragment_count`
field of every fragment, which overcounts the fragments actually sent by
one when `len(data)` is a positive multiple of `eff`. -/
theorem c5_amended_fragmentation (data : List Nat) (s : SenderState)
    (hmtu : 12 < s.mtu)
    (hids : numFragments (s.mtu - 4 - 4 - 4) data.length ≤ s.ids.card) :
    ∃ s2 sent,
      sender_write data s = .ok (s2, sent, true) ∧
      sent.length = numFragments (s.mtu - 4 - 4 - 4) data.length ∧
      (∀ m ∈ sent, ∃ f i, f.length ≤ s.mtu - 4 - 4 - 4 ∧
          m = encodeFragment f i (data.length / (s.mtu - 4 - 4 - 4) + 1)) ∧
      (fragList (s.mtu - 4 - 4 - 4) data).flatten = data ∧
      (data = [] → sent = []) := by
  have heff : 0 < s.mtu - 4 - 4 - 4 := by omega
  obtain ⟨s2, extra, heq, hlen, hmem⟩ :=
    writeGo_ok (data.length / (s.mtu - 4 - 4 - 4) + 1)
      (fragList (s.mtu - 4 - 4 - 4) data) s []
      (by rw [fragList_length]; exact hids)
  refine ⟨s2, extra, by simpa using heq,
    by rw [hlen, fragList_length], ?hm, fragList_flatten heff data, ?hempty⟩
  · intro m hm
    obtain ⟨f, i, hf, rfl⟩ := hmem m hm
    exact ⟨f, i, fragList_mem_short hf, rfl⟩
  · rintro rfl
    have h0 : extra.length = 0 := by
      rw [hlen, fragList_length]
      exact numFragments_zero heff
    exact List.length_eq_zero.1 h0

/-- C5 amended-claim witness: a 3-byte write at `MTU = 14` (`eff = 2`)
sends `ceil(3/2) = 2` fragments carrying `fragment_count = 3/2 + 1 = 2`. -/
theorem c5_amended_fragmentation_witness :
    ∃ s2 sent,
      sender_write [97, 98, 99]
          { mtu := 14, current_number := 0, cache := [], ids := {0, 1, 2},
            rtt := 10 } =
        .ok (s2, sent, true) ∧
      sent.length = numFragments 2 3 ∧
      (∀ m ∈ sent, ∃ f i, f.length ≤ 2 ∧ m = encodeFragment f i 2) ∧
      (fragList 2 [97, 98, 99]).flatten = [97, 98, 99] ∧
      ([97, 98, 99] = ([] : List Nat) → sent = []) :=
  c5_amended_fragmentation [97, 98, 99]
    { mtu := 14, current_number := 0, cache := [], ids := {0, 1, 2},
      rtt := 10 }
    (by decide) (by decide)

/-- C3: evaluation of `write` at a sender whose pool has one free id left
and whose data needs two fragments (`MTU = 13`, `eff = 1`, 2 bytes): the
first fragment is sent and recorded, then `self.ids.pop()` raises
`KeyError` — the call neither returns `False` nor is free of side
effects: one fragment is already on the wire, its id consumed and its
outstanding record created.  (`write` has no pool check at all; on
success it always returns `True`.) -/
theorem c3_pool_exhaustion_crash :
    sender_write [97, 98]
        { mtu := 13, current_number := 0, cache := [], ids := {0},
          rtt := 10 } =
      .error ({ mtu := 13, current_number := 0,
                cache := [(0, encodeFragment [97] 0 3, 0)], ids := ∅,
                rtt := 10 },
              [encodeFragment [97] 0 3]) := by decide

/-- C1: evaluation of the protocol at a failing input within the declared
link model.  Two 1-byte writes (`b'a'`, then `b'b'`, `MTU = 50`) produce
two single-fragment packets with ids 0 and 1; a link that reorders them
delivers id 1 first, and the receiver hands the application `b'b'` then
`b'a'` — the delivered concatenation is `[98, 97]`, which is not a prefix
of (nor ever equal to) the written concatenation `[97] ++ [98]`, even
though the transfer is complete. -/
theorem c1_reordered_delivery_bug :
    sender_write [97] (senderInit 50) =
      .ok ({ senderInit 50 with
               cache := [(0, encodeFragment [97] 0 1, 0)],
               ids := (Finset.range 2000).erase 0 },
           [encodeFragment [97] 0 1], true) ∧
    sender_write [98]
        { senderInit 50 with
            cache := [(0, encodeFragment [97] 0 1, 0)],
            ids := (Finset.range 2000).erase 0 } =
      .ok ({ senderInit 50 with
               cache := [(0, encodeFragment [97] 0 1, 0),
                         (1, encodeFragment [98] 1 1, 0)],
               ids := ((Finset.range 2000).erase 0).erase 1 },
           [encodeFragment [98] 1 1], true) ∧
    receiver_on_msg (encodeFragment [98] 1 1) receiverInit =
      .ok ({ receiverInit with length := 1 }, [le32 1], [[98]]) ∧
    receiver_on_msg (encodeFragment [97] 0 1)
        { receiverInit with length := 1 } =
      .ok ({ receiverInit with length := 1 }, [le32 0], [[97]]) ∧
    [[98], [97]].flatten ≠ [97] ++ [98] := by
  have h0 : popMin (senderInit 50).ids =
      some (0, (Finset.range 2000).erase 0) :=
    popMin_eq _ 0 (by simp [senderInit]) (fun m _ => Nat.zero_le m)
  have h1 : popMin ((Finset.range 2000).erase 0) =
      some (1, ((Finset.range 2000).erase 0).erase 1) := by
    refine popMin_eq _ 1 (by simp) fun m hm => ?hb
    simp only [Finset.mem_erase, Finset.mem_range] at hm
    omega
  refine ⟨?w1, ?w2, by decide, by decide, by decide⟩
  · rw [sender_write]
    show writeGo 1 [[97]] (senderInit 50) [] = _
    rw [writeGo_cons 1 [97] [] _ [] 0 _ h0, writeGo_nil]
    rfl
  · rw [sender_write]
    show writeGo 1 [[98]]
      { senderInit 50 with
          cache := [(0, encodeFragment [97] 0 1, 0)],
          ids := (Finset.range 2000).erase 0 } [] = _
    rw [writeGo_cons 1 [98] []
          { senderInit 50 with
              cache := [(0, encodeFragment [97] 0 1, 0)],
              ids := (Finset.range 2000).erase 0 } [] 1
          (((Finset.range 2000).erase 0).erase 1) h1, writeGo_nil]
    rfl

/-- C7: in every state the sender reaches through any sequence of
`write`, ack and tick calls — including the state left by a mid-write
pool-exhaustion failure — the outstanding sequence ids and the free pool
are disjoint and together are exactly `[0, 2000)`. -/
theorem c7_pool_partition (ru : Nat → Nat → Nat) (mtu : Nat)
    (s : SenderState) (h : SenderReach ru mtu s) :
    Disjoint (senderKeys s).toFinset s.ids ∧
    (senderKeys s).toFinset ∪ s.ids = Finset.range 2000 := by
  have hinv : SenderInv s := by
    induction h with
    | init => exact senderInv_init mtu
    | write data hs ih => exact senderInv_writeGo _ _ _ _ ih
    | ack msg hs ih => exact senderInv_ack _ _ _ ih
    | tick hs ih => exact senderInv_tick _ ih
  exact ⟨hinv.2.1, hinv.2.2⟩

/-- C7 witness: the partition at the initial state. -/
theorem c7_pool_partition_witness :
    Disjoint (senderKeys (senderInit 50)).toFinset (senderInit 50).ids ∧
    (senderKeys (senderInit 50)).toFinset ∪ (senderInit 50).ids =
      Finset.range 2000 :=
  c7_pool_partition rttStd 50 (senderInit 50) SenderReach.init
